import Mathlib

/-!
Verification of the TUI-text cleaning program (src/src/main.rs).

Strings are modelled as `List Char`; Rust byte values as `Nat`.
Rust's standard character classifiers (`char::is_whitespace`,
`char::is_control`, `char::is_ascii_punctuation`) are reproduced exactly
from the Unicode data they are specified by; `char::is_alphanumeric`
(Alphabetic or Numeric) is tabulated exactly for ASCII, Latin-1 and the
Latin Extended blocks, which covers every code point this development
evaluates it at.
-/

/-- Rust `char::is_whitespace`: the Unicode White_Space property (exact). -/
def isRustWhitespace (c : Char) : Bool :=
  let n := c.toNat
  (0x09 ≤ n && n ≤ 0x0D) || n == 0x20 || n == 0x85 || n == 0xA0 ||
  n == 0x1680 || (0x2000 ≤ n && n ≤ 0x200A) || n == 0x2028 || n == 0x2029 ||
  n == 0x202F || n == 0x205F || n == 0x3000

/-- Rust `char::is_control`: the Unicode Cc category (exact). -/
def isRustControl (c : Char) : Bool :=
  let n := c.toNat
  n ≤ 0x1F || (0x7F ≤ n && n ≤ 0x9F)

/-- Rust `char::is_ascii_punctuation` (exact). -/
def isRustAsciiPunct (c : Char) : Bool :=
  let n := c.toNat
  (0x21 ≤ n && n ≤ 0x2F) || (0x3A ≤ n && n ≤ 0x40) ||
  (0x5B ≤ n && n ≤ 0x60) || (0x7B ≤ n && n ≤ 0x7E)

/-- Rust `char::is_alphanumeric` (Alphabetic or Numeric), tabulated for
ASCII, Latin-1, Latin Extended-A/B and the few spacing-modifier letters
the cp1252 table can produce. Code points outside these blocks are not
evaluated anywhere in this development. -/
def isRustAlphanumeric (c : Char) : Bool :=
  let n := c.toNat
  (0x30 ≤ n && n ≤ 0x39) || (0x41 ≤ n && n ≤ 0x5A) || (0x61 ≤ n && n ≤ 0x7A) ||
  n == 0xAA || n == 0xB5 || n == 0xBA ||
  n == 0xB2 || n == 0xB3 || n == 0xB9 || n == 0xBC || n == 0xBD || n == 0xBE ||
  (0xC0 ≤ n && n ≤ 0xD6) || (0xD8 ≤ n && n ≤ 0xF6) || (0xF8 ≤ n && n ≤ 0xFF) ||
  (0x100 ≤ n && n ≤ 0x24F) || (0x2B0 ≤ n && n ≤ 0x2C1) ||
  (0x2C6 ≤ n && n ≤ 0x2D1)

/-- `is_borderish` from the source: box-drawing ranges, block/shade range,
and the enumerated companion set (corner glyphs and typical mojibake
renderings). `?` is deliberately not included. -/
def is_borderish (c : Char) : Bool :=
  let n := c.toNat
  (0x2500 ≤ n && n ≤ 0x257F) || (0x2580 ≤ n && n ≤ 0x259F) ||
  c ∈ ['╭', '╮', '╯', '╰', '╔', '╗', '╚', '╝', '╠', '╣', '╦', '╩', '╬',
       '╪', '╫', '╞', '╡', '╥', '╨', '╳', '│', '║', '─', '━', '═', '┼',
       '┬', '┴', '├', '┤', '┌', '┐', '└', '┘', '∩', '╜', '╛', '╓', '╖',
       '╙', '╘', '╟', 'â', 'Ã', 'ã', 'Â', 'ï', '»', '¿']

/-- Rust `str::trim_end` on a character list. -/
def trimEnd (l : List Char) : List Char :=
  (l.reverse.dropWhile isRustWhitespace).reverse

/-- Rust `str::trim_start` on a character list. -/
def trimStart (l : List Char) : List Char :=
  l.dropWhile isRustWhitespace

/-- Rust `str::trim` on a character list. -/
def trim (l : List Char) : List Char :=
  trimStart (trimEnd l)

/-- Rust `str::trim_start_matches('\u{feff}')`: drop every leading BOM. -/
def stripBOM (l : List Char) : List Char :=
  l.dropWhile (fun c => c == '\uFEFF')

/-- UTF-8 byte length of one scalar value (Rust `char::len_utf8`). -/
def charUtf8Size (c : Char) : Nat :=
  let n := c.toNat
  if n ≤ 0x7F then 1 else if n ≤ 0x7FF then 2 else if n ≤ 0xFFFF then 3 else 4

/-- Rust `str::len`: the UTF-8 byte length of a string. -/
def utf8Len (l : List Char) : Nat :=
  (l.map charUtf8Size).sum

/-- Split a character list at every newline (plain split; the result always
has at least one element). -/
def splitNl : List Char → List (List Char)
  | [] => [[]]
  | c :: r =>
    if c = '\n' then [] :: splitNl r
    else
      match splitNl r with
      | h :: t => (c :: h) :: t
      | [] => [[c]]

/-- Drop a final empty element (used to model the absent line after a
trailing newline in Rust `str::lines`). -/
def dropLastEmpty (ls : List (List Char)) : List (List Char) :=
  if ls.getLast? = some [] then ls.dropLast else ls

/-- Strip one trailing carriage return from a line (Rust `str::lines`). -/
def stripCR (l : List Char) : List Char :=
  if l.getLast? = some '\r' then l.dropLast else l

/-- Rust `str::lines`: split on newline, strip one trailing carriage return
per line, no final empty line after a trailing newline. -/
def linesOf (s : List Char) : List (List Char) :=
  if s.isEmpty then [] else (dropLastEmpty (splitNl s)).map stripCR

/-- Join lines with single newlines (inverse of the split for
newline-free lines). -/
def joinLines : List (List Char) → List Char
  | [] => []
  | [l] => l
  | l :: ls => l ++ '\n' :: joinLines ls

/-- One arm-by-arm translation of the `match` inside `encode_windows_1252`:
the 27 named cp1252 specials, then ASCII, then `0xA0..=0xFF`, then
`0x80..=0x9F` (the codepage-gap code points encode to their own value),
otherwise failure. -/
def encodeChar (c : Char) : Option Nat :=
  let n := c.toNat
  if n == 0x20AC then some 0x80
  else if n == 0x201A then some 0x82
  else if n == 0x0192 then some 0x83
  else if n == 0x201E then some 0x84
  else if n == 0x2026 then some 0x85
  else if n == 0x2020 then some 0x86
  else if n == 0x2021 then some 0x87
  else if n == 0x02C6 then some 0x88
  else if n == 0x2030 then some 0x89
  else if n == 0x0160 then some 0x8A
  else if n == 0x2039 then some 0x8B
  else if n == 0x0152 then some 0x8C
  else if n == 0x017D then some 0x8E
  else if n == 0x2018 then some 0x91
  else if n == 0x2019 then some 0x92
  else if n == 0x201C then some 0x93
  else if n == 0x201D then some 0x94
  else if n == 0x2022 then some 0x95
  else if n == 0x2013 then some 0x96
  else if n == 0x2014 then some 0x97
  else if n == 0x02DC then some 0x98
  else if n == 0x2122 then some 0x99
  else if n == 0x0161 then some 0x9A
  else if n == 0x203A then some 0x9B
  else if n == 0x0153 then some 0x9C
  else if n == 0x017E then some 0x9E
  else if n == 0x0178 then some 0x9F
  else if n ≤ 0x7F then some n
  else if 0xA0 ≤ n && n ≤ 0xFF then some n
  else if 0x80 ≤ n && n ≤ 0x9F then some n
  else none

/-- `encode_windows_1252`: encode every character or fail. -/
def encode_windows_1252 : List Char → Option (List Nat)
  | [] => some []
  | c :: rest =>
    match encodeChar c with
    | none => none
    | some b =>
      match encode_windows_1252 rest with
      | none => none
      | some bs => some (b :: bs)

/-- Continuation-byte test for the UTF-8 validator. -/
def isCont (b : Nat) : Bool := 0x80 ≤ b && b ≤ 0xBF

/-- Decode one UTF-8 scalar from the front of a byte sequence (the checks
done by Rust `String::from_utf8`): rejects overlong forms, surrogates and
values above `U+10FFFF`. Non-recursive. -/
def utf8Step1 (b : Nat) (rest : List Nat) : Option (Char × List Nat) :=
    if b ≤ 0x7F then some (Char.ofNat b, rest)
    else if b < 0xC2 then none
    else if b ≤ 0xDF then
      match rest with
      | b2 :: rest2 =>
        if isCont b2 then some (Char.ofNat ((b - 0xC0) * 0x40 + (b2 - 0x80)), rest2)
        else none
      | [] => none
    else if b ≤ 0xEF then
      match rest with
      | b2 :: b3 :: rest3 =>
        let okB2 :=
          if b == 0xE0 then 0xA0 ≤ b2 && b2 ≤ 0xBF
          else if b == 0xED then 0x80 ≤ b2 && b2 ≤ 0x9F
          else isCont b2
        if okB2 && isCont b3 then
          some (Char.ofNat ((b - 0xE0) * 0x1000 + (b2 - 0x80) * 0x40 + (b3 - 0x80)), rest3)
        else none
      | _ => none
    else if b ≤ 0xF4 then
      match rest with
      | b2 :: b3 :: b4 :: rest4 =>
        let okB2 :=
          if b == 0xF0 then 0x90 ≤ b2 && b2 ≤ 0xBF
          else if b == 0xF4 then 0x80 ≤ b2 && b2 ≤ 0x8F
          else isCont b2
        if okB2 && isCont b3 && isCont b4 then
          some (Char.ofNat ((b - 0xF0) * 0x40000 + (b2 - 0x80) * 0x1000 +
            (b3 - 0x80) * 0x40 + (b4 - 0x80)), rest4)
        else none
      | _ => none
    else none

/-- Decode one UTF-8 scalar from the front of a byte sequence. -/
def utf8Step : List Nat → Option (Char × List Nat)
  | [] => none
  | b :: rest => utf8Step1 b rest

/-- Fuelled loop for the UTF-8 validator; each step consumes at least one
byte, so fuel equal to the byte count never runs out. -/
def utf8DecodeGo : Nat → List Nat → Option (List Char)
  | _, [] => some []
  | 0, _ :: _ => none
  | fuel + 1, b :: rest =>
    match utf8Step (b :: rest) with
    | none => none
    | some (c, remaining) => (utf8DecodeGo fuel remaining).map (fun cs => c :: cs)

/-- Strict UTF-8 decoding of a whole byte sequence (the check done by
Rust `String::from_utf8`). -/
def utf8Decode (bs : List Nat) : Option (List Char) :=
  utf8DecodeGo bs.length bs

/-- `recover_from_cp1252_mojibake`: re-encode through the cp1252 table and
reinterpret the bytes as UTF-8. -/
def recover_from_cp1252_mojibake (input : List Char) : Option (List Char) :=
  match encode_windows_1252 input with
  | none => none
  | some bytes => utf8Decode bytes

/-- `normalize_variants`: the BOM-stripped baseline first, then the
mojibake-recovered candidate when it exists and differs. -/
def normalize_variants (input : List Char) : List (List Char) :=
  let baseline := stripBOM input
  match recover_from_cp1252_mojibake baseline with
  | some repaired => if repaired ≠ baseline then [baseline, repaired] else [baseline]
  | none => [baseline]

/-- ASCII digit test (`[0-9]` in the ANSI pattern). -/
def isAsciiDigit (c : Char) : Bool := '0' ≤ c && c ≤ '9'

/-- Terminating byte class `[0-9A-ORZcf-nqry=><]` of `RE_ANSI`. -/
def isAnsiFinal (c : Char) : Bool :=
  isAsciiDigit c || ('A' ≤ c && c ≤ 'O') || c == 'R' || c == 'Z' || c == 'c' ||
  ('f' ≤ c && c ≤ 'n') || c == 'q' || c == 'r' || c == 'y' ||
  c == '=' || c == '>' || c == '<'

/-- Intermediate class `[\[()#;?]` of `RE_ANSI`. -/
def isAnsiInter (c : Char) : Bool :=
  c == '[' || c == '(' || c == ')' || c == '#' || c == ';' || c == '?'

/-- Backtracking helper: try `f` at `j`, `j-1`, …, `lo`, first success wins
(the leftmost-first priority of a greedy quantifier). -/
def tryDownTo (f : Nat → Option Nat) (lo : Nat) : Nat → Option Nat
  | 0 => if lo == 0 then f 0 else none
  | j + 1 =>
    if j + 1 < lo then none
    else
      match f (j + 1) with
      | some n => some n
      | none => tryDownTo f lo j

/-- Match the single terminating byte of `RE_ANSI`. -/
def tryFinal : List Char → Option Nat
  | c :: _ => if isAnsiFinal c then some 1 else none
  | [] => none

/-- Match `(?:;[0-9]{0,4})*` followed by the terminating byte, with greedy
priorities: prefer one more `;`-group, and within a group prefer more
digits; fall back to the terminator. `fuel` bounds the recursion (each
group consumes at least the `;`). -/
def tryGroups : Nat → List Char → Option Nat
  | 0, _ => none
  | fuel + 1, s =>
    let viaGroup :=
      match s with
      | ';' :: rest =>
        let dmax := min 4 (rest.takeWhile isAsciiDigit).length
        tryDownTo
          (fun j => (tryGroups fuel (rest.drop j)).map (fun n => 1 + j + n)) 0 dmax
      | _ => none
    match viaGroup with
    | some n => some n
    | none => tryFinal s

/-- Match `(?:[0-9]{1,4}(?:;[0-9]{0,4})*)?` followed by the terminating
byte: try the parameter list first (greedy, 4 digits down to 1), else the
terminator alone. -/
def tryPF (s : List Char) : Option Nat :=
  let dmax := min 4 (s.takeWhile isAsciiDigit).length
  let viaP :=
    if dmax == 0 then none
    else
      tryDownTo
        (fun k => (tryGroups (s.length + 1) (s.drop k)).map (fun n => k + n)) 1 dmax
  match viaP with
  | some n => some n
  | none => tryFinal s

/-- Match `[\[()#;?]*` (greedy) followed by the rest of `RE_ANSI`. -/
def tryInter (s : List Char) : Option Nat :=
  let imax := (s.takeWhile isAnsiInter).length
  tryDownTo (fun i => (tryPF (s.drop i)).map (fun n => i + n)) 0 imax

/-- Length of the `RE_ANSI` match starting at the head of the list, if the
head is an escape marker (`ESC` or its C1 equivalent `U+009B`). -/
def ansiMatchLen : List Char → Option Nat
  | [] => none
  | c :: rest =>
    if c == '\x1B' || c == '\u009B' then (tryInter rest).map (fun n => 1 + n)
    else none

/-- Scanner for `RE_ANSI.replace_all(_, "")`: remove each successive
leftmost match, resuming after the removed span. -/
def ansiStripGo : Nat → List Char → List Char
  | 0, s => s
  | fuel + 1, s =>
    match s with
    | [] => []
    | c :: rest =>
      match ansiMatchLen (c :: rest) with
      | some n => ansiStripGo fuel ((c :: rest).drop n)
      | none => c :: ansiStripGo fuel rest

/-- `RE_ANSI.replace_all(text, "")`. -/
def ansiStrip (s : List Char) : List Char :=
  ansiStripGo (s.length + 1) s

/-- Character class of `RE_BORDER_LINE` (whitespace plus the listed border
glyphs). -/
def isBorderLineChar (c : Char) : Bool :=
  isRustWhitespace c ||
  c ∈ ['╭', '╮', '╰', '╯', '─', '═', '━', '┌', '┐', '└', '┘']

/-- `RE_BORDER_LINE.is_match`: a non-empty line made only of whitespace and
border glyphs (`^[\s╭╮╰╯─═━┌┐└┘]+$`). -/
def borderLineMatch (l : List Char) : Bool :=
  !l.isEmpty && l.all isBorderLineChar

/-- Horizontal bars `[─═━]` of `RE_TITLED_BORDER`. -/
def isTitledBar (c : Char) : Bool := c == '─' || c == '═' || c == '━'

/-- Closing corners `[╮┐╯┘]` of `RE_TITLED_BORDER`. -/
def isCloseCorner (c : Char) : Bool :=
  c == '╮' || c == '┐' || c == '╯' || c == '┘'

/-- Opening class `[\s╭┌╰└]` of `RE_TITLED_BORDER`. -/
def isTitledOpen (c : Char) : Bool :=
  isRustWhitespace c || c == '╭' || c == '┌' || c == '╰' || c == '└'

/-- Tail of `RE_TITLED_BORDER` after the bars: some later character is a
closing corner followed only by whitespace (`(?:.*?)[╮┐╯┘]\s*$`). -/
def cornerTail : List Char → Bool
  | [] => false
  | c :: rest => (isCloseCorner c && rest.all isRustWhitespace) || cornerTail rest

/-- A run of at least three bars somewhere, followed (not necessarily
immediately) by a closing corner and trailing whitespace
(`[─═━]{3,}(?:.*?)[╮┐╯┘]\s*$` matched existentially). -/
def titledTail : List Char → Bool
  | c1 :: c2 :: c3 :: rest =>
    (isTitledBar c1 && isTitledBar c2 && isTitledBar c3 && cornerTail rest) ||
    titledTail (c2 :: c3 :: rest)
  | _ => false

/-- `RE_TITLED_BORDER.is_match`: opening corner or whitespace, then a run
of at least 3 horizontal bars, then a closing corner and only whitespace
to the end. -/
def titledBorderMatch (l : List Char) : Bool :=
  match l with
  | c :: rest => isTitledOpen c && titledTail rest
  | [] => false

/-- The `[│║]` border column of `RE_CONTENT_WRAPPER`. -/
def isWrapperBar (c : Char) : Bool := c == '│' || c == '║'

/-- Suffix language `\x20?[│║]?\s*$` of `RE_CONTENT_WRAPPER`: a suffix the
lazy content group may stop in front of. -/
def wrapperSuffixOk (s : List Char) : Bool :=
  s.all isRustWhitespace ||
  (match s with
   | b :: t => isWrapperBar b && t.all isRustWhitespace
   | [] => false) ||
  (match s with
   | ' ' :: b :: t => isWrapperBar b && t.all isRustWhitespace
   | _ => false)

/-- The lazy `(?P<content>.*?)` capture: the shortest prefix whose
remaining suffix matches `\x20?[│║]?\s*$`. -/
def lazyContent : List Char → List Char
  | [] => []
  | c :: rest =>
    if wrapperSuffixOk (c :: rest) then [] else c :: lazyContent rest

/-- `RE_CONTENT_WRAPPER.captures(line)` restricted to the `content` group:
leading whitespace, a `│`/`║` border, an optional single padding space,
then the lazily-captured content. Returns `none` when the pattern does
not match. -/
def contentWrapperCapture (line : List Char) : Option (List Char) :=
  match line.dropWhile isRustWhitespace with
  | c :: r =>
    if isWrapperBar c then
      let r' := if r.head? = some ' ' then r.tail else r
      some (lazyContent r')
    else none
  | [] => none

/-- Counter state of the loop in `is_mostly_borderish`. -/
structure BStats where
  borderish : Nat
  alnum : Nat
  printable : Nat
  longest : Nat
  current : Nat
deriving Repr, DecidableEq

/-- One iteration of the counting loop in `is_mostly_borderish`
(control characters are skipped; the border run resets on a
non-border character). -/
def bstep (s : BStats) (ch : Char) : BStats :=
  if isRustControl ch then s
  else
    let s := { s with printable := s.printable + 1 }
    let s :=
      if is_borderish ch then
        { s with
          borderish := s.borderish + 1
          current := s.current + 1
          longest := max s.longest (s.current + 1) }
      else s
    let s := if isRustAlphanumeric ch then { s with alnum := s.alnum + 1 } else s
    if is_borderish ch then s else { s with current := 0 }

/-- `is_mostly_borderish`: the four independent sufficiency conditions
over the counters of the trimmed line. -/
def is_mostly_borderish (line : List Char) : Bool :=
  let trimmed := trim line
  if trimmed.isEmpty then false
  else
    let s := trimmed.foldl bstep ⟨0, 0, 0, 0, 0⟩
    if s.printable == 0 then false
    else
      let startsB := match trimmed.head? with
        | some c => is_borderish c
        | none => false
      let endsB := match trimmed.getLast? with
        | some c => is_borderish c
        | none => false
      let borderRatioHigh := decide (s.borderish * 4 ≥ s.printable * 3)
      let borderFramesText := startsB && endsB && decide (s.borderish > s.alnum)
      let borderDominates := startsB && endsB && decide (s.borderish * 2 ≥ s.printable)
      let strongBorderRun :=
        startsB && endsB && decide (s.longest ≥ 3) && decide (s.borderish * 2 > s.printable)
      borderRatioHigh || borderFramesText || borderDominates || strongBorderRun

/-- `unwrap_wrapped_line`: strip leading BOMs; empty means framed with
empty content; otherwise require an opening border run, skip one padding
space, then drop trailing border glyphs and trailing whitespace. -/
def unwrap_wrapped_line (line : List Char) : Option (List Char) :=
  let s := stripBOM line
  if s.isEmpty then some []
  else
    let leftRun := (s.takeWhile is_borderish).length
    if leftRun == 0 then none
    else
      let afterBorder := s.drop leftRun
      let afterPad := if afterBorder.head? = some ' ' then afterBorder.tail else afterBorder
      some (((afterPad.reverse.dropWhile is_borderish).dropWhile isRustWhitespace).reverse)

/-- `score_candidate`: the per-character quality score. The Rust code uses
`i64`; realistic inputs stay far from the overflow boundary, so the sum is
modelled in `Int`. -/
def score_candidate (text : List Char) : Int :=
  text.foldl
    (fun score ch =>
      if ch = '�' then score - 10
      else if is_borderish ch then score - 2
      else if isRustAlphanumeric ch then score + 4
      else if isRustAsciiPunct ch then score + 2
      else if isRustWhitespace ch then score + 1
      else score - 1)
    0

/-- Accumulator of `scrub_inline_borderish`: output so far and whether the
scan is inside a border run. -/
def scrubStep (acc : List Char × Bool) (ch : Char) : List Char × Bool :=
  let result := acc.1
  let inBorder := acc.2
  if is_borderish ch then
    (if !inBorder && !result.isEmpty && !(result.getLast? == some ' ') then
       result ++ [' ']
     else result, true)
  else
    let r :=
      if inBorder && !result.isEmpty && !(result.getLast? == some ' ') &&
         !isRustWhitespace ch then
        result ++ [' ']
      else result
    (r ++ [ch], false)

/-- `scrub_inline_borderish`: collapse embedded border runs to single
separating spaces, then trim trailing whitespace. -/
def scrub_inline_borderish (text : List Char) : List Char :=
  trimEnd (text.foldl scrubStep ([], false)).1

/-- State threaded through `strip_tui_lines`: the output buffer, the
first-line flag and the consecutive-blank counter. -/
structure PushState where
  out : List Char
  first : Bool
  consecutiveEmpty : Nat
deriving Repr, DecidableEq

/-- `push_content_line`: right-trim the content; count consecutive blank
lines, suppressing them beyond the second (the counter keeps growing);
otherwise append the line with a separating newline. -/
def push_content_line (st : PushState) (content : List Char) : PushState :=
  let trimmed := trimEnd content
  if (trim trimmed).isEmpty then
    if st.consecutiveEmpty + 1 > 2 then
      { st with consecutiveEmpty := st.consecutiveEmpty + 1 }
    else
      { out := st.out ++ (if st.first then [] else ['\n']) ++ trimmed
        first := false
        consecutiveEmpty := st.consecutiveEmpty + 1 }
  else
    { out := st.out ++ (if st.first then [] else ['\n']) ++ trimmed
      first := false
      consecutiveEmpty := 0 }

/-- One line of the `strip_tui_lines` loop: drop border-dominated, pure
border and titled border lines; otherwise unwrap, match the generic
wrapper, or fall back to the raw line — each followed by the inline scrub
and the blank-coalescing push. -/
def stripLineStep (st : PushState) (line : List Char) : PushState :=
  if is_mostly_borderish line || borderLineMatch line || titledBorderMatch line then
    st
  else
    match unwrap_wrapped_line line with
    | some unwrapped => push_content_line st (scrub_inline_borderish unwrapped)
    | none =>
      match contentWrapperCapture line with
      | some content => push_content_line st (scrub_inline_borderish content)
      | none => push_content_line st (scrub_inline_borderish line)

/-- `strip_tui_lines`: run the per-line pipeline and right-trim the final
output. -/
def strip_tui_lines (input : List Char) : List Char :=
  trimEnd ((linesOf input).foldl stripLineStep ⟨[], true, 0⟩).out

/-- `i64::MIN`, the initial best score in `clean_text`. -/
def i64Min : Int := -(2 ^ 63)

/-- One candidate step of `clean_text`: strip ANSI sequences, strip TUI
lines, score, and keep the candidate when it strictly beats the best so
far. -/
def cleanStep (acc : List Char × Int) (variant : List Char) : List Char × Int :=
  let cleaned := strip_tui_lines (ansiStrip variant)
  let score := score_candidate cleaned
  if score > acc.2 then (cleaned, score) else acc

/-- `clean_text`: score every variant, keep the best (earliest on ties),
right-trim the winner. -/
def clean_text (input : List Char) : List Char :=
  trimEnd ((normalize_variants input).foldl cleanStep ([], i64Min)).1

/-- `ClipboardTransaction`: the snapshot and the at-most-once cleaned
candidate. -/
structure ClipboardTransaction where
  original : List Char
  modified : Option (List Char)
deriving Repr, DecidableEq

/-- `ClipboardTransaction::set_modified`. -/
def set_modified (tx : ClipboardTransaction) (m : List Char) : ClipboardTransaction :=
  { tx with modified := some m }

/-- The error cases of `ClipboardTransaction::validate`. -/
inductive ValidateErr where
  | noModified
  | replacementChar
  | emptiedContent
deriving Repr, DecidableEq

/-- `ClipboardTransaction::validate`: reject a missing candidate, a
candidate containing `U+FFFD`, or an empty candidate cleaned from
substantial content. The greater-than-90% size-reduction branch only
prints a warning and is therefore invisible here. -/
def validate (tx : ClipboardTransaction) : Except ValidateErr Unit :=
  match tx.modified with
  | none => .error .noModified
  | some modified =>
    if modified.contains '�' then .error .replacementChar
    else if utf8Len (trim tx.original) > 10 && (trim modified).isEmpty then
      .error .emptiedContent
    else .ok ()

/-- An observable call made by `commit`/`main` on the external clipboard
resource. -/
inductive ClipCall where
  | read
  | write (data : List Char)
deriving Repr, DecidableEq

/-- The error cases of `ClipboardTransaction::commit`. `writeAborted` and
`verifyAborted` are the non-critical aborts after a successful rollback;
the two `RollbackFailed` cases are the critical failures. -/
inductive CommitErr where
  | noModified
  | writeAborted
  | writeRollbackFailed
  | verifyAborted
  | verifyRollbackFailed
deriving Repr, DecidableEq

/-- Environment of one `commit` run: whether the write of `modified`
succeeds, what the verification read returns (`none` = read error), and
whether the rollback write of `original` succeeds. A successful write
stores exactly the written text; a failed write leaves the content
untouched; the verification read may return anything (platform
normalization). -/
structure CommitEnv where
  writeModifiedOk : Bool
  readbackResult : Option (List Char)
  writeOriginalOk : Bool
deriving Repr, DecidableEq

/-- `ClipboardTransaction::commit` over the resource model: returns the
result, the final resource content (starting from `c0`), and the trace of
resource calls. -/
def commit (tx : ClipboardTransaction) (env : CommitEnv) (c0 : List Char) :
    Except CommitErr Unit × List Char × List ClipCall :=
  match tx.modified with
  | none => (.error .noModified, c0, [])
  | some modified =>
    if modified = tx.original then (.ok (), c0, [])
    else if !env.writeModifiedOk then
      if env.writeOriginalOk then
        (.error .writeAborted, tx.original, [.write modified, .write tx.original])
      else
        (.error .writeRollbackFailed, c0, [.write modified, .write tx.original])
    else
      match env.readbackResult with
      | some readback =>
        if trimEnd readback ≠ trimEnd modified then
          if env.writeOriginalOk then
            (.error .verifyAborted, tx.original,
              [.write modified, .read, .write tx.original])
          else
            (.error .verifyRollbackFailed, modified,
              [.write modified, .read, .write tx.original])
        else (.ok (), modified, [.write modified, .read])
      | none => (.ok (), modified, [.write modified, .read])

/-- Environment of one program run: what the snapshot read returns
(`none` = unreadable) and the commit-phase behaviour. -/
structure MainEnv where
  readResult : Option (List Char)
  commitEnv : CommitEnv
deriving Repr, DecidableEq

/-- `main` over the resource model: snapshot, blank-clipboard early exit,
clean, no-change early exit, validate, then commit. Every branch of the
source returns `Ok(())`, so the reported exit result is always success;
commit errors surface only as diagnostics. -/
def mainRun (env : MainEnv) (c0 : List Char) :
    Except CommitErr Unit × List Char × List ClipCall :=
  match env.readResult with
  | none => (.ok (), c0, [.read])
  | some originalText =>
    if (trim originalText).isEmpty then (.ok (), c0, [.read])
    else
      let cleanedText := clean_text originalText
      if cleanedText = originalText then (.ok (), c0, [.read])
      else
        let tx := set_modified { original := originalText, modified := none } cleanedText
        match validate tx with
        | .error _ => (.ok (), c0, [.read])
        | .ok _ =>
          let r := commit tx env.commitEnv c0
          (.ok (), r.2.1, .read :: r.2.2)

/-- `encode_windows_1252` fails as soon as one character has no encoding. -/
theorem encode_windows_1252_eq_none {l : List Char}
    (h : ∃ c ∈ l, encodeChar c = none) : encode_windows_1252 l = none := by
  induction l with
  | nil => simp at h
  | cons a t ih =>
    obtain ⟨c, hc, hn⟩ := h
    rcases List.mem_cons.mp hc with rfl | hct
    · simp [encode_windows_1252, hn]
    · cases ha : encodeChar a with
      | none => simp [encode_windows_1252, ha]
      | some b => simp [encode_windows_1252, ha, ih ⟨c, hct, hn⟩]

/-- C1: if the write of `modified` succeeds but the verification read
returns content that differs from `modified` after right-trimming, and the
restore write of `original` succeeds, `commit` returns the non-critical
verification abort (not success) and the resource ends up holding
`original`. -/
theorem commit_verify_mismatch_restores_original
    (o m rb c0 : List Char) (env : CommitEnv)
    (hm : m ≠ o)
    (hw : env.writeModifiedOk = true)
    (hr : env.readbackResult = some rb)
    (hne : trimEnd rb ≠ trimEnd m)
    (hrb : env.writeOriginalOk = true) :
    commit ⟨o, some m⟩ env c0 =
      (.error .verifyAborted, o, [.write m, .read, .write o]) := by
  simp [commit, hm, hw, hr, hne, hrb]

/-- Witness for C1 at a concrete transaction and environment. -/
theorem commit_verify_mismatch_restores_original_witness :
    (['b'] : List Char) ≠ ['a'] ∧ trimEnd ['c'] ≠ trimEnd ['b'] ∧
    commit ⟨['a'], some ['b']⟩ ⟨true, some ['c'], true⟩ [] =
      (.error .verifyAborted, ['a'], [.write ['b'], .read, .write ['a']]) :=
  ⟨by decide, by decide,
    commit_verify_mismatch_restores_original ['a'] ['b'] ['c'] []
      ⟨true, some ['c'], true⟩ (by decide) rfl rfl (by decide) rfl⟩

/-- C2: with `modified` set, `validate` fails exactly when `modified`
contains `U+FFFD`, or the trimmed `original` is longer than 10 bytes while
the trimmed `modified` is empty; the size-reduction warning never makes it
fail. -/
theorem validate_error_iff (o m : List Char) :
    (∃ e, validate ⟨o, some m⟩ = .error e) ↔
      '�' ∈ m ∨ (utf8Len (trim o) > 10 ∧ trim m = []) := by
  by_cases h1 : '�' ∈ m
  · simp [validate, h1]
  · by_cases h2 : utf8Len (trim o) > 10
    · by_cases h3 : trim m = []
      · simp [validate, h1, h2, h3]
      · simp [validate, h1, h2, h3]
    · simp [validate, h1, h2]

/-- C3 counterexample: the codepage-gap code point `U+0081` does have an
encoding (its own byte value), and an input containing it can produce a
second, mojibake-recovered variant. -/
theorem normalize_variants_gap_char_counterexample :
    encodeChar '\u0081' = some 0x81 ∧
    normalize_variants ['Ã', '\u0081'] = [['Ã', '\u0081'], ['Á']] := by
  decide

/-- C3 amended: when some character of the BOM-stripped input has no
encoding in the cp1252 table (the named specials, ASCII, and everything up
to `U+00FF` — the gap code points included — do have one), the recovery
step fails and only the baseline variant is produced. -/
theorem normalize_variants_unencodable_baseline_only (s : List Char)
    (h : ∃ c ∈ stripBOM s, encodeChar c = none) :
    normalize_variants s = [stripBOM s] := by
  simp [normalize_variants, recover_from_cp1252_mojibake,
    encode_windows_1252_eq_none h]

/-- Witness for the amended C3 at an input containing a box-drawing
character, which has no cp1252 encoding. -/
theorem normalize_variants_unencodable_baseline_only_witness :
    (∃ c ∈ stripBOM ['│'], encodeChar c = none) ∧
    normalize_variants ['│'] = [stripBOM ['│']] :=
  ⟨⟨'│', by decide, by decide⟩,
    normalize_variants_unencodable_baseline_only ['│'] ⟨'│', by decide, by decide⟩⟩

/-- C4 counterexample: a second `set_modified` replaces the previously
recorded value. -/
theorem set_modified_overwrite_counterexample :
    (set_modified ⟨[], some ['a']⟩ ['b']).modified = some ['b'] ∧
    (some ['b'] : Option (List Char)) ≠ some ['a'] := by
  decide

/-- C4 amended: `set_modified` unconditionally records its argument,
whether or not a value was recorded before; the at-most-once discipline is
kept by the caller, not enforced here. -/
theorem set_modified_records_latest (tx : ClipboardTransaction) (t : List Char) :
    (set_modified tx t).modified = some t := rfl

/-- C5 counterexample: on the empty line the unwrapper does not report
"not framed"; it reports framed-with-empty-content. -/
theorem unwrap_empty_line_counterexample :
    unwrap_wrapped_line [] = some [] ∧ unwrap_wrapped_line [] ≠ none := by
  decide

/-- C5 amended: when the BOM-stripped line is non-empty and the
left-to-right scan finds zero border-ish characters at its start, the
unwrapper reports "not framed"; the empty (or BOM-only) line instead
yields empty framed content. -/
theorem unwrap_none_of_head_not_borderish (line : List Char) (c : Char)
    (r : List Char) (hs : stripBOM line = c :: r) (hb : is_borderish c = false) :
    unwrap_wrapped_line line = none := by
  simp [unwrap_wrapped_line, hs, List.takeWhile_cons, hb]

/-- Witness for the amended C5 at a plain one-character line. -/
theorem unwrap_none_of_head_not_borderish_witness :
    stripBOM ['a'] = 'a' :: [] ∧ is_borderish 'a' = false ∧
    unwrap_wrapped_line ['a'] = none :=
  ⟨by decide, by decide,
    unwrap_none_of_head_not_borderish ['a'] 'a' [] (by decide) (by decide)⟩

/-- C6: committing a candidate identical to the snapshot succeeds without
touching the resource: no call is made and the content is unchanged. -/
theorem commit_identical_skips_write (o c0 : List Char) (env : CommitEnv) :
    commit ⟨o, some o⟩ env c0 = (.ok (), c0, []) := by
  simp [commit]

/-- C9: if the write of `modified` succeeds but the verification read
fails with an error, `commit` returns success, performs no rollback write,
and the resource keeps `modified`. -/
theorem commit_readback_error_keeps_modified (o m c0 : List Char)
    (env : CommitEnv) (hm : m ≠ o) (hw : env.writeModifiedOk = true)
    (hr : env.readbackResult = none) :
    commit ⟨o, some m⟩ env c0 = (.ok (), m, [.write m, .read]) := by
  simp [commit, hm, hw, hr]

/-- Witness for C9 at a concrete transaction and environment. -/
theorem commit_readback_error_keeps_modified_witness :
    (['b'] : List Char) ≠ ['a'] ∧
    commit ⟨['a'], some ['b']⟩ ⟨true, none, false⟩ ['a'] =
      (.ok (), ['b'], [.write ['b'], .read]) :=
  ⟨by decide,
    commit_readback_error_keeps_modified ['a'] ['b'] ['a']
      ⟨true, none, false⟩ (by decide) rfl rfl⟩

/-- C10: when the snapshot read returns empty or whitespace-only content,
the run stops right after the read: success, no further resource call, and
the resource content unchanged. -/
theorem main_blank_clipboard_noop (env : MainEnv) (c0 ot : List Char)
    (hr : env.readResult = some ot) (hb : (trim ot).isEmpty = true) :
    mainRun env c0 = (.ok (), c0, [.read]) := by
  simp [mainRun, hr, hb]

/-- Witness for C10 at a whitespace-only clipboard. -/
theorem main_blank_clipboard_noop_witness :
    (trim [' ']).isEmpty = true ∧
    mainRun ⟨some [' '], ⟨true, none, true⟩⟩ ['a'] = (.ok (), ['a'], [.read]) :=
  ⟨by decide,
    main_blank_clipboard_noop ⟨some [' '], ⟨true, none, true⟩⟩ ['a'] [' ']
      rfl (by decide)⟩

/-- A blank line: empty or whitespace-only (what the pipeline's
blank-coalescing counts). -/
def isBlankLine (l : List Char) : Bool := (trim l).isEmpty

/-- One step of the blank-run accounting over a list of lines: current
trailing run and maximum run so far. -/
def runStep (p : Nat × Nat) (l : List Char) : Nat × Nat :=
  if isBlankLine l then (p.1 + 1, max p.2 (p.1 + 1)) else (0, p.2)

/-- Trailing blank run and maximum blank run of a list of lines. -/
def blankRuns (L : List (List Char)) : Nat × Nat := L.foldl runStep (0, 0)

/-- The longest run of consecutive blank lines. -/
def maxBlankRun (L : List (List Char)) : Nat := (blankRuns L).2

/-- The number of trailing blank lines. -/
def trailingBlanks (L : List (List Char)) : Nat := (blankRuns L).1

theorem blankRuns_append_single (L : List (List Char)) (t : List Char) :
    blankRuns (L ++ [t]) = runStep (blankRuns L) t := by
  simp [blankRuns, List.foldl_append]

theorem runStep_snd_le (p : Nat × Nat) (l : List Char) : p.2 ≤ (runStep p l).2 := by
  unfold runStep
  split <;> simp [Nat.le_max_left]

theorem blankRuns_foldl_snd_le (S : List (List Char)) :
    ∀ p : Nat × Nat, p.2 ≤ (S.foldl runStep p).2 := by
  induction S with
  | nil => intro p; simp
  | cons a S ih =>
    intro p
    calc p.2 ≤ (runStep p a).2 := runStep_snd_le p a
    _ ≤ (S.foldl runStep (runStep p a)).2 := ih _

/-- The maximum blank run of a prefix is bounded by that of the whole
list. -/
theorem maxBlankRun_prefix_le (L S : List (List Char)) :
    maxBlankRun L ≤ maxBlankRun (L ++ S) := by
  unfold maxBlankRun blankRuns
  rw [List.foldl_append]
  exact blankRuns_foldl_snd_le S _

theorem dropWhile_idem (p : Char → Bool) (l : List Char) :
    (l.dropWhile p).dropWhile p = l.dropWhile p := by
  induction l with
  | nil => rfl
  | cons a t ih =>
    by_cases h : p a <;> simp [List.dropWhile_cons, h, ih]

theorem trimEnd_trimEnd (l : List Char) : trimEnd (trimEnd l) = trimEnd l := by
  simp [trimEnd, dropWhile_idem]

theorem mem_trimEnd (l : List Char) {c : Char} (h : c ∈ trimEnd l) : c ∈ l := by
  simp only [trimEnd, List.mem_reverse] at h
  exact List.mem_reverse.mp ((List.dropWhile_sublist _).subset h)

theorem dropWhile_append_cases (p : Char → Bool) (x y : List Char) :
    (x ++ y).dropWhile p =
      if (x.dropWhile p).isEmpty then y.dropWhile p else x.dropWhile p ++ y := by
  induction x with
  | nil => simp
  | cons a t ih =>
    by_cases h : p a <;> simp [List.dropWhile_cons, h, ih]

theorem trimEnd_eq_nil_iff (l : List Char) :
    trimEnd l = [] ↔ ∀ c ∈ l, isRustWhitespace c := by
  simp [trimEnd, List.dropWhile_eq_nil_iff]

theorem trimEnd_append_cases (a b : List Char) :
    trimEnd (a ++ b) = if trimEnd b = [] then trimEnd a else a ++ trimEnd b := by
  unfold trimEnd
  rw [List.reverse_append, dropWhile_append_cases]
  by_cases h : (b.reverse.dropWhile isRustWhitespace).isEmpty
  · simp only [h, if_true]
    have : b.reverse.dropWhile isRustWhitespace = [] := by
      simpa [List.isEmpty_iff] using h
    simp [this]
  · simp only [h, if_false]
    have : b.reverse.dropWhile isRustWhitespace ≠ [] := by
      simpa [List.isEmpty_iff] using h
    have h2 : (b.reverse.dropWhile isRustWhitespace).reverse ≠ [] := by
      simpa using this
    simp [h2]

theorem isBlankLine_iff_all (l : List Char) :
    isBlankLine l = true ↔ ∀ c ∈ l, isRustWhitespace c := by
  constructor
  · intro h c hc
    have hnil : (trimEnd l).dropWhile isRustWhitespace = [] := by
      simpa [isBlankLine, trim, trimStart, List.isEmpty_iff] using h
    have hTE : ∀ x ∈ trimEnd l, isRustWhitespace x :=
      List.dropWhile_eq_nil_iff.mp hnil
    have hrevc : c ∈ l.reverse := List.mem_reverse.mpr hc
    rw [← List.takeWhile_append_dropWhile (p := isRustWhitespace)
      (l := l.reverse)] at hrevc
    rcases List.mem_append.mp hrevc with h1 | h2
    · exact List.mem_takeWhile_imp h1
    · exact hTE c (by
        simp only [trimEnd]
        exact List.mem_reverse.mpr h2)
  · intro h
    have h1 : trimEnd l = [] := (trimEnd_eq_nil_iff l).mpr h
    simp [isBlankLine, trim, trimStart, h1]

/-- Under right-trim fixedness, blank means empty. -/
theorem blank_fixed_eq_nil {l : List Char} (hfix : trimEnd l = l)
    (hb : isBlankLine l = true) : l = [] := by
  have hall := (isBlankLine_iff_all l).mp hb
  have := (trimEnd_eq_nil_iff l).mpr hall
  rw [hfix] at this
  exact this

theorem trimEnd_blank_eq_nil {l : List Char} (hb : isBlankLine l = true) :
    trimEnd l = [] :=
  (trimEnd_eq_nil_iff l).mpr ((isBlankLine_iff_all l).mp hb)

/-- Prepending a character to a non-empty right-trim-fixed list keeps it
right-trim-fixed. -/
theorem trimEnd_cons_fixed {l : List Char} (c : Char) (hfix : trimEnd l = l)
    (hne : l ≠ []) : trimEnd (c :: l) = c :: l := by
  have hrev : l.reverse.dropWhile isRustWhitespace = l.reverse := by
    have := congrArg List.reverse hfix
    simpa [trimEnd] using this
  have hempty : (l.reverse.dropWhile isRustWhitespace).isEmpty = false := by
    rw [hrev]
    simp [List.isEmpty_iff, hne]
  unfold trimEnd
  rw [show (c :: l).reverse = l.reverse ++ [c] from by simp,
      dropWhile_append_cases]
  simp [hempty, hrev]
  exact fun h => absurd h hne

theorem joinLines_append_single (L : List (List Char)) (t : List Char) :
    joinLines (L ++ [t]) = if L.isEmpty then t else joinLines L ++ '\n' :: t := by
  induction L with
  | nil => simp [joinLines]
  | cons l ls ih =>
    cases ls with
    | nil => simp [joinLines]
    | cons a ls' =>
      simp only [List.cons_append, List.isEmpty_cons, if_neg Bool.false_ne_true]
      rw [show joinLines (l :: a :: (ls' ++ [t])) =
            l ++ '\n' :: joinLines (a :: (ls' ++ [t])) from rfl,
          show joinLines (l :: a :: ls') = l ++ '\n' :: joinLines (a :: ls') from rfl]
      rw [show (a : List Char) :: (ls' ++ [t]) = (a :: ls') ++ [t] from rfl, ih]
      simp

theorem splitNl_ne_nil (s : List Char) : splitNl s ≠ [] := by
  induction s with
  | nil => simp [splitNl]
  | cons c r ih =>
    by_cases h : c = '\n'
    · simp [splitNl, h]
    · simp only [splitNl, if_neg h]
      cases hs : splitNl r with
      | nil => exact absurd hs ih
      | cons a t => simp

theorem splitNl_no_nl {l : List Char} (h : '\n' ∉ l) : splitNl l = [l] := by
  induction l with
  | nil => rfl
  | cons c r ih =>
    have hc : c ≠ '\n' := fun hc => h (hc ▸ List.mem_cons_self c r)
    have hr : '\n' ∉ r := fun hr => h (List.mem_cons_of_mem c hr)
    simp only [splitNl, if_neg hc, ih hr]

theorem splitNl_append_nl {l : List Char} (t : List Char) (h : '\n' ∉ l) :
    splitNl (l ++ '\n' :: t) = l :: splitNl t := by
  induction l with
  | nil => simp [splitNl]
  | cons c r ih =>
    have hc : c ≠ '\n' := fun hc => h (hc ▸ List.mem_cons_self c r)
    have hr : '\n' ∉ r := fun hr => h (List.mem_cons_of_mem c hr)
    show splitNl (c :: (r ++ '\n' :: t)) = (c :: r) :: splitNl t
    simp only [splitNl, if_neg hc, ih hr]

theorem splitNl_joinLines {L : List (List Char)} (hnl : ∀ l ∈ L, '\n' ∉ l)
    (hne : L ≠ []) : splitNl (joinLines L) = L := by
  induction L with
  | nil => exact absurd rfl hne
  | cons l ls ih =>
    cases ls with
    | nil => exact splitNl_no_nl (hnl l (List.mem_cons_self l []))
    | cons a ls' =>
      rw [show joinLines (l :: a :: ls') = l ++ '\n' :: joinLines (a :: ls') from rfl,
          splitNl_append_nl _ (hnl l (List.mem_cons_self _ _))]
      rw [ih (fun x hx => hnl x (List.mem_cons_of_mem l hx)) (by simp)]

theorem splitNl_mem {s l : List Char} (h : l ∈ splitNl s) :
    '\n' ∉ l ∧ ∀ c ∈ l, c ∈ s := by
  induction s generalizing l with
  | nil =>
    simp [splitNl] at h
    subst h
    simp
  | cons c r ih =>
    by_cases hc : c = '\n'
    · simp only [splitNl, if_pos hc] at h
      rcases List.mem_cons.mp h with rfl | h2
      · simp
      · obtain ⟨h3, h4⟩ := ih h2
        exact ⟨h3, fun x hx => List.mem_cons_of_mem c (h4 x hx)⟩
    · simp only [splitNl, if_neg hc] at h
      cases hs : splitNl r with
      | nil => exact absurd hs (splitNl_ne_nil r)
      | cons a t =>
        rw [hs] at h
        rcases List.mem_cons.mp h with rfl | h2
        · have ha : a ∈ splitNl r := by rw [hs]; exact List.mem_cons_self a t
          obtain ⟨h3, h4⟩ := ih ha
          constructor
          · intro hmem
            rcases List.mem_cons.mp hmem with h5 | h5
            · exact hc h5.symm
            · exact h3 h5
          · intro x hx
            rcases List.mem_cons.mp hx with rfl | h5
            · exact List.mem_cons_self x r
            · exact List.mem_cons_of_mem c (h4 x h5)
        · have ha : l ∈ splitNl r := by rw [hs]; exact List.mem_cons_of_mem a h2
          obtain ⟨h3, h4⟩ := ih ha
          exact ⟨h3, fun x hx => List.mem_cons_of_mem c (h4 x hx)⟩

theorem linesOf_mem {s l : List Char} (h : l ∈ linesOf s) :
    '\n' ∉ l ∧ ∀ c ∈ l, c ∈ s := by
  unfold linesOf at h
  by_cases hs : s.isEmpty
  · simp [hs] at h
  · simp only [hs, if_neg Bool.false_ne_true] at h
    obtain ⟨l0, hl0, rfl⟩ := List.mem_map.mp h
    have hl0' : l0 ∈ splitNl s := by
      unfold dropLastEmpty at hl0
      by_cases hd : (splitNl s).getLast? = some ([] : List Char)
      · simp only [hd, if_pos rfl] at hl0
        exact (List.dropLast_sublist _).subset hl0
      · simpa [hd] using hl0
    obtain ⟨h1, h2⟩ := splitNl_mem hl0'
    unfold stripCR
    by_cases hcr : l0.getLast? = some '\r'
    · simp only [hcr, if_pos rfl]
      constructor
      · intro hm
        exact h1 ((List.dropLast_sublist _).subset hm)
      · intro c hc
        exact h2 c ((List.dropLast_sublist _).subset hc)
    · simp only [hcr, if_neg (by exact hcr)]
      exact ⟨h1, h2⟩


theorem scrubStep_chars (acc : List Char × Bool) (c : Char) :
    ∀ y ∈ (scrubStep acc c).1, y ∈ acc.1 ∨ y = ' ' ∨ y = c := by
  intro y hy
  cases hb : is_borderish c with
  | true =>
    cases hcond : (!acc.2 && !acc.1.isEmpty && !(acc.1.getLast? == some ' ')) with
    | true =>
      simp only [scrubStep, hb, hcond, if_true] at hy
      rcases List.mem_append.mp hy with h | h
      · exact Or.inl h
      · simp at h; exact Or.inr (Or.inl h)
    | false =>
      simp only [scrubStep, hb, hcond, if_true, Bool.false_eq_true, if_false] at hy
      exact Or.inl hy
  | false =>
    cases hcond : (acc.2 && !acc.1.isEmpty && !(acc.1.getLast? == some ' ') &&
        !isRustWhitespace c) with
    | true =>
      simp only [scrubStep, hb, hcond, Bool.false_eq_true, if_false, if_true] at hy
      rcases List.mem_append.mp hy with h | h
      · rcases List.mem_append.mp h with h2 | h2
        · exact Or.inl h2
        · simp at h2; exact Or.inr (Or.inl h2)
      · simp at h; exact Or.inr (Or.inr h)
    | false =>
      simp only [scrubStep, hb, hcond, Bool.false_eq_true, if_false] at hy
      rcases List.mem_append.mp hy with h | h
      · exact Or.inl h
      · simp at h; exact Or.inr (Or.inr h)

theorem scrubStep_fold_chars (t : List Char) :
    ∀ (acc : List Char × Bool) (P : Char → Prop),
      (∀ x ∈ acc.1, P x) → P ' ' → (∀ x ∈ t, P x) →
      ∀ x ∈ (t.foldl scrubStep acc).1, P x := by
  induction t with
  | nil => intro acc P hacc _ _ x hx; exact hacc x hx
  | cons c r ih =>
    intro acc P hacc hsp ht x hx
    refine ih (scrubStep acc c) P ?_ hsp
      (fun y hy => ht y (List.mem_cons_of_mem c hy)) x hx
    intro y hy
    rcases scrubStep_chars acc c y hy with h | h | h
    · exact hacc y h
    · exact h ▸ hsp
    · exact h ▸ ht c (List.mem_cons_self c r)

/-- Characters of the scrub output are spaces or characters of the
input. -/
theorem scrub_chars (t : List Char) {x : Char}
    (hx : x ∈ scrub_inline_borderish t) : x = ' ' ∨ x ∈ t := by
  unfold scrub_inline_borderish at hx
  exact scrubStep_fold_chars t ([], false) (fun y => y = ' ' ∨ y ∈ t)
    (by simp) (Or.inl rfl) (fun y hy => Or.inr hy) x (mem_trimEnd _ hx)

theorem lazyContent_subset (s : List Char) : ∀ x ∈ lazyContent s, x ∈ s := by
  induction s with
  | nil => simp [lazyContent]
  | cons c r ih =>
    intro x hx
    cases h : wrapperSuffixOk (c :: r) with
    | true => simp [lazyContent, h] at hx
    | false =>
      simp only [lazyContent, h, Bool.false_eq_true, if_false] at hx
      rcases List.mem_cons.mp hx with rfl | h2
      · exact List.mem_cons_self x r
      · exact List.mem_cons_of_mem c (ih x h2)

/-- Characters of the wrapper capture come from the line. -/
theorem contentWrapperCapture_subset {line u : List Char}
    (h : contentWrapperCapture line = some u) : ∀ x ∈ u, x ∈ line := by
  unfold contentWrapperCapture at h
  cases hd : line.dropWhile isRustWhitespace with
  | nil => rw [hd] at h; exact absurd h (by simp)
  | cons c r =>
    rw [hd] at h
    cases hb : isWrapperBar c with
    | false => simp [hb] at h
    | true =>
      simp only [hb, if_true, Option.some.injEq] at h
      subst h
      have hdw : ∀ y ∈ (c :: r : List Char), y ∈ line := by
        intro y hy
        rw [← hd] at hy
        exact (List.dropWhile_sublist _).subset hy
      intro x hx
      by_cases hsp : r.head? = some ' '
      · rw [if_pos hsp] at hx
        have h1 := lazyContent_subset _ x hx
        exact hdw x (List.mem_cons_of_mem c ((List.tail_sublist r).subset h1))
      · rw [if_neg hsp] at hx
        exact hdw x (List.mem_cons_of_mem c (lazyContent_subset _ x hx))

/-- Characters of the unwrap output come from the line. -/
theorem unwrap_wrapped_line_subset {line u : List Char}
    (h : unwrap_wrapped_line line = some u) : ∀ x ∈ u, x ∈ line := by
  unfold unwrap_wrapped_line at h
  cases he : (stripBOM line).isEmpty with
  | true =>
    simp only [he, if_true, Option.some.injEq] at h
    subst h
    simp
  | false =>
    simp only [he, Bool.false_eq_true, if_false] at h
    cases hz : (((stripBOM line).takeWhile is_borderish).length == 0) with
    | true => simp [hz] at h
    | false =>
      simp only [hz, Bool.false_eq_true, if_false, Option.some.injEq] at h
      subst h
      intro x hx
      rw [List.mem_reverse] at hx
      have h1 := (List.dropWhile_sublist _).subset hx
      have h2 := (List.dropWhile_sublist _).subset h1
      rw [List.mem_reverse] at h2
      have h3 : x ∈ (stripBOM line).drop
          ((stripBOM line).takeWhile is_borderish).length := by
        by_cases hsp : ((stripBOM line).drop
            ((stripBOM line).takeWhile is_borderish).length).head? = some ' '
        · rw [if_pos hsp] at h2
          exact (List.tail_sublist _).subset h2
        · rw [if_neg hsp] at h2
          exact h2
      have h4 : x ∈ stripBOM line := (List.drop_sublist _ _).subset h3
      exact (List.dropWhile_sublist _).subset h4

/-- Invariant tying a `PushState` to the abstract list of emitted lines:
the buffer is their newline-join, the first-line flag tracks emptiness,
the blank counter matches the trailing blank run (capped at 2), no run of
blanks exceeds 2, and every emitted line is newline-free, right-trim
fixed, and drawn from `Q`. -/
def StInv (Q : Char → Prop) (st : PushState) (L : List (List Char)) : Prop :=
  st.out = joinLines L ∧
  st.first = L.isEmpty ∧
  trailingBlanks L = min st.consecutiveEmpty 2 ∧
  maxBlankRun L ≤ 2 ∧
  ∀ l ∈ L, '\n' ∉ l ∧ trimEnd l = l ∧ ∀ x ∈ l, Q x

theorem push_content_line_inv {Q : Char → Prop} {st : PushState}
    {L : List (List Char)} {c : List Char}
    (h : StInv Q st L) (hnl : '\n' ∉ c) (hQ : ∀ x ∈ c, Q x) :
    ∃ L', StInv Q (push_content_line st c) L' := by
  obtain ⟨hout, hfirst, htrail, hmax, hmem⟩ := h
  have htnl : '\n' ∉ trimEnd c := fun hx => hnl (mem_trimEnd c hx)
  have htQ : ∀ x ∈ trimEnd c, Q x := fun x hx => hQ x (mem_trimEnd c hx)
  have htfix : trimEnd (trimEnd c) = trimEnd c := trimEnd_trimEnd c
  have houtApp :
      st.out ++ (if st.first then [] else ['\n']) ++ trimEnd c =
        joinLines (L ++ [trimEnd c]) := by
    rw [joinLines_append_single, hfirst]
    cases hL : L.isEmpty with
    | true =>
      have hLnil : L = [] := by simpa [List.isEmpty_iff] using hL
      simp [hLnil, hout, joinLines]
    | false => simp [hout]
  have hmem' : ∀ l ∈ L ++ [trimEnd c],
      '\n' ∉ l ∧ trimEnd l = l ∧ ∀ x ∈ l, Q x := by
    intro l hl
    rcases List.mem_append.mp hl with h1 | h1
    · exact hmem l h1
    · simp only [List.mem_singleton] at h1
      exact h1 ▸ ⟨htnl, htfix, htQ⟩
  have hTBapp : trailingBlanks (L ++ [trimEnd c]) =
      (runStep (blankRuns L) (trimEnd c)).1 := by
    simp [trailingBlanks, blankRuns, List.foldl_append]
  have hMRapp : maxBlankRun (L ++ [trimEnd c]) =
      (runStep (blankRuns L) (trimEnd c)).2 := by
    simp [maxBlankRun, blankRuns, List.foldl_append]
  have hTB : (blankRuns L).1 = trailingBlanks L := rfl
  have hMR : (blankRuns L).2 = maxBlankRun L := rfl
  by_cases hbt : (trim (trimEnd c)).isEmpty
  · have hblank : isBlankLine (trimEnd c) = true := hbt
    have hrs1 : (runStep (blankRuns L) (trimEnd c)).1 = (blankRuns L).1 + 1 := by
      simp [runStep, hblank]
    have hrs2 : (runStep (blankRuns L) (trimEnd c)).2 =
        max (blankRuns L).2 ((blankRuns L).1 + 1) := by
      simp [runStep, hblank]
    by_cases hk : st.consecutiveEmpty + 1 > 2
    · refine ⟨L, ?_, ?_, ?_, ?_, hmem⟩
      · simp only [push_content_line, if_pos hbt, if_pos hk]
        exact hout
      · simp only [push_content_line, if_pos hbt, if_pos hk]
        exact hfirst
      · simp only [push_content_line, if_pos hbt, if_pos hk]
        show trailingBlanks L = min (st.consecutiveEmpty + 1) 2
        rw [htrail]
        omega
      · exact hmax
    · refine ⟨L ++ [trimEnd c], ?_, ?_, ?_, ?_, hmem'⟩
      · simp only [push_content_line, if_pos hbt, if_neg hk]
        exact houtApp
      · simp only [push_content_line, if_pos hbt, if_neg hk]
        show false = (L ++ [trimEnd c]).isEmpty
        simp
      · simp only [push_content_line, if_pos hbt, if_neg hk]
        show trailingBlanks (L ++ [trimEnd c]) = min (st.consecutiveEmpty + 1) 2
        rw [hTBapp, hrs1, hTB, htrail]
        omega
      · show maxBlankRun (L ++ [trimEnd c]) ≤ 2
        rw [hMRapp, hrs2, hTB, hMR, htrail]
        omega
  · have hblank : isBlankLine (trimEnd c) = false := by
      simpa [isBlankLine] using hbt
    have hrs1 : (runStep (blankRuns L) (trimEnd c)).1 = 0 := by
      simp [runStep, hblank]
    have hrs2 : (runStep (blankRuns L) (trimEnd c)).2 = (blankRuns L).2 := by
      simp [runStep, hblank]
    refine ⟨L ++ [trimEnd c], ?_, ?_, ?_, ?_, hmem'⟩
    · simp only [push_content_line, if_neg hbt]
      exact houtApp
    · simp only [push_content_line, if_neg hbt]
      show false = (L ++ [trimEnd c]).isEmpty
      simp
    · simp only [push_content_line, if_neg hbt]
      show trailingBlanks (L ++ [trimEnd c]) = min 0 2
      rw [hTBapp, hrs1]
      omega
    · show maxBlankRun (L ++ [trimEnd c]) ≤ 2
      rw [hMRapp, hrs2, hMR]
      exact hmax

theorem stripLineStep_inv {Q : Char → Prop} {st : PushState}
    {L : List (List Char)} {line : List Char}
    (h : StInv Q st L) (hsp : Q ' ') (hnl : '\n' ∉ line) (hQ : ∀ x ∈ line, Q x) :
    ∃ L', StInv Q (stripLineStep st line) L' := by
  unfold stripLineStep
  by_cases hdrop : (is_mostly_borderish line || borderLineMatch line ||
      titledBorderMatch line : Bool)
  · rw [if_pos hdrop]
    exact ⟨L, h⟩
  · rw [if_neg hdrop]
    cases hu : unwrap_wrapped_line line with
    | some u =>
      have hsub := unwrap_wrapped_line_subset hu
      refine push_content_line_inv h ?_ ?_
      · intro hx
        rcases scrub_chars u hx with h1 | h1
        · exact absurd h1 (by decide)
        · exact hnl (hsub _ h1)
      · intro x hx
        rcases scrub_chars u hx with h1 | h1
        · exact h1 ▸ hsp
        · exact hQ x (hsub x h1)
    | none =>
      cases hc : contentWrapperCapture line with
      | some content =>
        have hsub := contentWrapperCapture_subset hc
        refine push_content_line_inv h ?_ ?_
        · intro hx
          rcases scrub_chars content hx with h1 | h1
          · exact absurd h1 (by decide)
          · exact hnl (hsub _ h1)
        · intro x hx
          rcases scrub_chars content hx with h1 | h1
          · exact h1 ▸ hsp
          · exact hQ x (hsub x h1)
      | none =>
        refine push_content_line_inv h ?_ ?_
        · intro hx
          rcases scrub_chars line hx with h1 | h1
          · exact absurd h1 (by decide)
          · exact hnl h1
        · intro x hx
          rcases scrub_chars line hx with h1 | h1
          · exact h1 ▸ hsp
          · exact hQ x h1

theorem strip_fold_inv {Q : Char → Prop} (hsp : Q ' ') :
    ∀ (lines : List (List Char)) (st : PushState) (L : List (List Char)),
      StInv Q st L → (∀ l ∈ lines, '\n' ∉ l ∧ ∀ x ∈ l, Q x) →
      ∃ L', StInv Q (lines.foldl stripLineStep st) L' := by
  intro lines
  induction lines with
  | nil => intro st L h _; exact ⟨L, h⟩
  | cons a rest ih =>
    intro st L h hl
    obtain ⟨ha1, ha2⟩ := hl a (List.mem_cons_self a rest)
    obtain ⟨L1, hL1⟩ := stripLineStep_inv h hsp ha1 ha2
    exact ih (stripLineStep st a) L1 hL1
      (fun l hx => hl l (List.mem_cons_of_mem a hx))

theorem trimEnd_joinLines_fixed (L : List (List Char))
    (hfix : ∀ l ∈ L, trimEnd l = l) :
    ∃ L' S, L = L' ++ S ∧ trimEnd (joinLines L) = joinLines L' ∧
      (∀ t, L'.getLast? = some t → isBlankLine t = false) := by
  induction L using List.reverseRecOn with
  | nil =>
    refine ⟨[], [], rfl, ?_, ?_⟩
    · simp [joinLines, trimEnd]
    · intro t ht; simp at ht
  | append_singleton M t ih =>
    have htfix : trimEnd t = t := hfix t (by simp)
    have hfixM : ∀ l ∈ M, trimEnd l = l := fun l hl => hfix l (by simp [hl])
    rw [joinLines_append_single]
    by_cases hbt : isBlankLine t
    · have ht0 : t = [] := blank_fixed_eq_nil htfix hbt
      cases hM : M.isEmpty with
      | true =>
        have hMnil : M = [] := by simpa [List.isEmpty_iff] using hM
        refine ⟨[], [t], by simp [hMnil], ?_, ?_⟩
        · simp [hM, ht0, joinLines, trimEnd]
        · intro x hx; simp at hx
      | false =>
        obtain ⟨L', S, hsplit, htrim, hlast⟩ := ih hfixM
        refine ⟨L', S ++ [t], by rw [hsplit]; simp, ?_, hlast⟩
        rw [if_neg (by simp [hM])]
        rw [ht0]
        rw [trimEnd_append_cases]
        rw [if_pos (by decide)]
        exact htrim
    · have htne : t ≠ [] := by
        intro h0
        rw [h0] at hbt
        exact hbt (by decide)
      cases hM : M.isEmpty with
      | true =>
        have hMnil : M = [] := by simpa [List.isEmpty_iff] using hM
        refine ⟨[t], [], by simp [hMnil], ?_, ?_⟩
        · simp [hM, joinLines, htfix]
        · intro x hx
          simp at hx
          rw [← hx]
          simpa using hbt
      | false =>
        refine ⟨M ++ [t], [], by simp, ?_, ?_⟩
        · rw [if_neg (by simp [hM])]
          rw [trimEnd_append_cases]
          have hcons : trimEnd ('\n' :: t) = '\n' :: t := trimEnd_cons_fixed '\n' htfix htne
          rw [if_neg (by rw [hcons]; simp)]
          rw [hcons, joinLines_append_single, if_neg (by simp [hM])]
        · intro x hx
          rw [List.getLast?_concat] at hx
          have hxt : t = x := by simpa using hx
          rw [← hxt]
          simpa using hbt

/-- The shape of a `strip_tui_lines` output: a newline-join of
newline-free right-trim-fixed lines over `Q`, with blank runs capped at 2
and no trailing blank line. -/
def StripShape (Q : Char → Prop) (y : List Char) : Prop :=
  ∃ L, y = joinLines L ∧ maxBlankRun L ≤ 2 ∧
    (∀ l ∈ L, '\n' ∉ l ∧ trimEnd l = l ∧ ∀ x ∈ l, Q x) ∧
    (∀ t, L.getLast? = some t → isBlankLine t = false)

theorem strip_tui_lines_shape {Q : Char → Prop} (hsp : Q ' ')
    (s : List Char) (hQ : ∀ c ∈ s, Q c) : StripShape Q (strip_tui_lines s) := by
  have hlines : ∀ l ∈ linesOf s, '\n' ∉ l ∧ ∀ x ∈ l, Q x := by
    intro l hl
    obtain ⟨h1, h2⟩ := linesOf_mem hl
    exact ⟨h1, fun x hx => hQ x (h2 x hx)⟩
  have hinit : StInv Q ⟨[], true, 0⟩ [] := by
    refine ⟨rfl, rfl, ?_, ?_, ?_⟩
    · simp [trailingBlanks, blankRuns]
    · simp [maxBlankRun, blankRuns]
    · intro l hl; simp at hl
  obtain ⟨L, hL⟩ := strip_fold_inv hsp (linesOf s) _ [] hinit hlines
  obtain ⟨hout, hfirst, htrail, hmax, hmem⟩ := hL
  obtain ⟨L', S, hsplit, htrimL, hlast⟩ :=
    trimEnd_joinLines_fixed L (fun l hl => (hmem l hl).2.1)
  refine ⟨L', ?_, ?_, ?_, hlast⟩
  · unfold strip_tui_lines
    rw [hout, htrimL]
  · calc maxBlankRun L' ≤ maxBlankRun (L' ++ S) := maxBlankRun_prefix_le _ _
    _ ≤ 2 := by rw [← hsplit]; exact hmax
  · intro l hl
    exact hmem l (by rw [hsplit]; exact List.mem_append_left S hl)

theorem trimEnd_joinLines_of_lastNonBlank (L : List (List Char))
    (hfix : ∀ l ∈ L, trimEnd l = l)
    (hlast : ∀ t, L.getLast? = some t → isBlankLine t = false) :
    trimEnd (joinLines L) = joinLines L := by
  induction L using List.reverseRecOn with
  | nil => simp [joinLines, trimEnd]
  | append_singleton M t ih =>
    have htfix : trimEnd t = t := hfix t (by simp)
    have hbt : isBlankLine t = false := hlast t (List.getLast?_concat M)
    have htne : t ≠ [] := by
      intro h0
      rw [h0] at hbt
      exact absurd hbt (by decide)
    rw [joinLines_append_single]
    cases hM : M.isEmpty with
    | true => simpa [hM] using htfix
    | false =>
      rw [if_neg (by simp [hM])]
      rw [trimEnd_append_cases]
      have hcons : trimEnd ('\n' :: t) = '\n' :: t := trimEnd_cons_fixed '\n' htfix htne
      rw [if_neg (by rw [hcons]; simp)]
      rw [hcons]

theorem shape_trimEnd_fixed {Q : Char → Prop} {y : List Char}
    (h : StripShape Q y) : trimEnd y = y := by
  obtain ⟨L, rfl, _, hmem, hlast⟩ := h
  exact trimEnd_joinLines_of_lastNonBlank L (fun l hl => (hmem l hl).2.1) hlast

theorem cleanStep_fold_shape (vs : List (List Char)) :
    ∀ acc : List Char × Int, StripShape (fun _ => True) acc.1 →
      StripShape (fun _ => True) ((vs.foldl cleanStep acc).1) := by
  induction vs with
  | nil => intro acc h; exact h
  | cons v rest ih =>
    intro acc h
    refine ih (cleanStep acc v) ?_
    unfold cleanStep
    by_cases hsc : score_candidate (strip_tui_lines (ansiStrip v)) > acc.2
    · rw [if_pos hsc]
      exact strip_tui_lines_shape trivial (ansiStrip v) (fun _ _ => trivial)
    · rw [if_neg hsc]
      exact h

/-- C8: the cleaned output of the pipeline never contains more than 2
consecutive blank lines: the longest run of blank lines in the
newline-split of `clean_text`'s output is at most 2, for every input. -/
theorem clean_text_blank_run_le_two (s : List Char) :
    maxBlankRun (splitNl (clean_text s)) ≤ 2 := by
  have hnil : StripShape (fun _ => True) ([] : List Char) := by
    refine ⟨[], rfl, ?_, ?_, ?_⟩
    · simp [maxBlankRun, blankRuns]
    · intro l hl; simp at hl
    · intro t ht; simp at ht
  have hbest := cleanStep_fold_shape (normalize_variants s) ([], i64Min) hnil
  have hclean : clean_text s =
      ((normalize_variants s).foldl cleanStep ([], i64Min)).1 := by
    unfold clean_text
    exact shape_trimEnd_fixed hbest
  rw [hclean]
  obtain ⟨L, hjoin, hmax, hmem, _⟩ := hbest
  rw [hjoin]
  cases hL : L with
  | nil =>
    rw [hL] at hjoin
    simp [joinLines, splitNl]
    decide
  | cons a M =>
    rw [← hL]
    rw [splitNl_joinLines (fun l hl => (hmem l hl).1) (by rw [hL]; simp)]
    exact hmax

theorem encodeChar_ascii {c : Char} (h : c.toNat ≤ 0x7F) :
    encodeChar c = some c.toNat := by
  have f : ∀ m : Nat, 0x7F < m → (c.toNat == m) = false := by
    intro m hm
    have : c.toNat ≠ m := by omega
    simp [this]
  simp only [encodeChar,
    f 0x20AC (by norm_num), f 0x201A (by norm_num), f 0x0192 (by norm_num),
    f 0x201E (by norm_num), f 0x2026 (by norm_num), f 0x2020 (by norm_num),
    f 0x2021 (by norm_num), f 0x02C6 (by norm_num), f 0x2030 (by norm_num),
    f 0x0160 (by norm_num), f 0x2039 (by norm_num), f 0x0152 (by norm_num),
    f 0x017D (by norm_num), f 0x2018 (by norm_num), f 0x2019 (by norm_num),
    f 0x201C (by norm_num), f 0x201D (by norm_num), f 0x2022 (by norm_num),
    f 0x2013 (by norm_num), f 0x2014 (by norm_num), f 0x02DC (by norm_num),
    f 0x2122 (by norm_num), f 0x0161 (by norm_num), f 0x203A (by norm_num),
    f 0x0153 (by norm_num), f 0x017E (by norm_num), f 0x0178 (by norm_num),
    Bool.false_eq_true, if_false]
  rw [if_pos h]

theorem encode_windows_1252_ascii (l : List Char)
    (h : ∀ c ∈ l, c.toNat ≤ 0x7F) :
    encode_windows_1252 l = some (l.map Char.toNat) := by
  induction l with
  | nil => rfl
  | cons c r ih =>
    rw [List.map_cons,
      show encode_windows_1252 (c :: r) =
        (match encodeChar c with
         | none => none
         | some b =>
           match encode_windows_1252 r with
           | none => none
           | some bs => some (b :: bs)) from rfl,
      encodeChar_ascii (h c (List.mem_cons_self c r)),
      ih (fun x hx => h x (List.mem_cons_of_mem c hx))]

theorem utf8Step_ascii {b : Nat} (rest : List Nat) (h : b ≤ 0x7F) :
    utf8Step (b :: rest) = some (Char.ofNat b, rest) := by
  show utf8Step1 b rest = some (Char.ofNat b, rest)
  unfold utf8Step1
  rw [if_pos h]

theorem utf8DecodeGo_map_toNat_ascii (l : List Char)
    (h : ∀ c ∈ l, c.toNat ≤ 0x7F) :
    ∀ fuel, l.length ≤ fuel → utf8DecodeGo fuel (l.map Char.toNat) = some l := by
  induction l with
  | nil => intro fuel _; cases fuel <;> rfl
  | cons c r ih =>
    intro fuel hf
    cases fuel with
    | zero => simp at hf
    | succ n =>
      have hc := h c (List.mem_cons_self c r)
      rw [List.map_cons]
      simp only [utf8DecodeGo, utf8Step_ascii (r.map Char.toNat) hc]
      rw [ih (fun x hx => h x (List.mem_cons_of_mem c hx)) n (by simpa using hf)]
      simp [Char.ofNat_toNat]

theorem utf8Decode_map_toNat_ascii (l : List Char)
    (h : ∀ c ∈ l, c.toNat ≤ 0x7F) :
    utf8Decode (l.map Char.toNat) = some l := by
  unfold utf8Decode
  exact utf8DecodeGo_map_toNat_ascii l h _ (by simp)

theorem stripBOM_ascii (l : List Char) (h : ∀ c ∈ l, c.toNat ≤ 0x7F) :
    stripBOM l = l := by
  cases l with
  | nil => rfl
  | cons c r =>
    have hc := h c (List.mem_cons_self c r)
    have : (c == '﻿') = false := by
      cases hb : c == '﻿' with
      | true =>
        have : c = '﻿' := by simpa using hb
        rw [this] at hc
        exact absurd hc (by decide)
      | false => rfl
    simp [stripBOM, List.dropWhile_cons, this]

theorem normalize_variants_ascii (l : List Char)
    (h : ∀ c ∈ l, c.toNat ≤ 0x7F) : normalize_variants l = [l] := by
  simp [normalize_variants, recover_from_cp1252_mojibake, stripBOM_ascii l h,
    encode_windows_1252_ascii l h, utf8Decode_map_toNat_ascii l h]

theorem ansiMatchLen_none {c : Char} {rest : List Char}
    (hc : c ≠ '\x1B') (hc2 : c ≠ '\u009B') :
    ansiMatchLen (c :: rest) = none := by
  have h1 : (c == '\x1B') = false := by
    cases hb : c == '\x1B' with
    | true => exact absurd (by simpa using hb) hc
    | false => rfl
  have h2 : (c == '\u009B') = false := by
    cases hb : c == '\u009B' with
    | true => exact absurd (by simpa using hb) hc2
    | false => rfl
  simp [ansiMatchLen, h1, h2]

theorem ansiStripGo_id (fuel : Nat) :
    ∀ s : List Char, (∀ c ∈ s, c ≠ '\x1B' ∧ c ≠ '\u009B') →
      ansiStripGo fuel s = s := by
  induction fuel with
  | zero => intro s _; rfl
  | succ n ih =>
    intro s hs
    cases s with
    | nil => rfl
    | cons c rest =>
      obtain ⟨h1, h2⟩ := hs c (List.mem_cons_self c rest)
      simp only [ansiStripGo, ansiMatchLen_none h1 h2]
      rw [ih rest (fun x hx => hs x (List.mem_cons_of_mem c hx))]

theorem ansiStrip_id (s : List Char)
    (h : ∀ c ∈ s, c ≠ '\x1B' ∧ c ≠ '\u009B') : ansiStrip s = s :=
  ansiStripGo_id (s.length + 1) s h

theorem is_borderish_gt {c : Char} (h : is_borderish c = true) :
    0x7F < c.toNat := by
  simp only [is_borderish, List.mem_cons, List.mem_singleton, Bool.or_eq_true,
    decide_eq_true_eq, Bool.and_eq_true, List.not_mem_nil, or_false] at h
  rcases h with ⟨h1, h2⟩ | ⟨h1, h2⟩ | rfl|rfl|rfl|rfl|rfl|rfl|rfl|rfl|rfl|rfl|rfl|rfl|rfl|rfl|rfl|rfl|rfl|rfl|rfl|rfl|rfl|rfl|rfl|rfl|rfl|rfl|rfl|rfl|rfl|rfl|rfl|rfl|rfl|rfl|rfl|rfl|rfl|rfl|rfl|rfl|rfl|rfl|rfl|rfl|rfl|rfl|rfl|rfl|rfl
  · omega
  · omega
  all_goals decide

theorem is_borderish_ascii {c : Char} (h : c.toNat ≤ 0x7F) :
    is_borderish c = false := by
  cases hb : is_borderish c with
  | true => exact absurd (is_borderish_gt hb) (by omega)
  | false => rfl

theorem isWrapperBar_borderish {c : Char} (h : isWrapperBar c = true) :
    is_borderish c = true := by
  simp only [isWrapperBar, Bool.or_eq_true, beq_iff_eq] at h
  rcases h with rfl | rfl <;> decide

theorem isTitledBar_borderish {c : Char} (h : isTitledBar c = true) :
    is_borderish c = true := by
  simp only [isTitledBar, Bool.or_eq_true, beq_iff_eq] at h
  rcases h with (rfl | rfl) | rfl <;> decide

theorem isBorderLineChar_cases {c : Char} (h : isBorderLineChar c = true) :
    isRustWhitespace c = true ∨ is_borderish c = true := by
  simp only [isBorderLineChar, List.mem_cons, List.mem_singleton, Bool.or_eq_true,
    decide_eq_true_eq, List.not_mem_nil, or_false] at h
  rcases h with h | rfl|rfl|rfl|rfl|rfl|rfl|rfl|rfl|rfl|rfl|rfl
  · exact Or.inl h
  all_goals right
  all_goals decide

theorem mem_trim {l : List Char} {c : Char} (h : c ∈ trim l) : c ∈ l :=
  mem_trimEnd l ((List.dropWhile_sublist _).subset h)

theorem mem_of_head? {l : List Char} {a : Char} (h : l.head? = some a) : a ∈ l := by
  cases l with
  | nil => simp at h
  | cons c r =>
    simp only [List.head?_cons, Option.some.injEq] at h
    exact h ▸ List.mem_cons_self c r

theorem mem_of_getLast? {l : List Char} {a : Char} (h : l.getLast? = some a) :
    a ∈ l := by
  induction l with
  | nil => simp at h
  | cons c r ih =>
    cases r with
    | nil =>
      simp only [List.getLast?_singleton, Option.some.injEq] at h
      exact h ▸ List.mem_cons_self c []
    | cons d t =>
      rw [List.getLast?_cons_cons] at h
      exact List.mem_cons_of_mem c (ih h)

theorem borderLineMatch_false_of_no_border {l : List Char}
    (hb : ∀ c ∈ l, is_borderish c = false) (hnb : isBlankLine l = false) :
    borderLineMatch l = false := by
  cases hm : borderLineMatch l with
  | false => rfl
  | true =>
    exfalso
    simp only [borderLineMatch, Bool.and_eq_true, List.all_eq_true] at hm
    obtain ⟨_, hall⟩ := hm
    have hws : ∀ c ∈ l, isRustWhitespace c = true := by
      intro c hc
      rcases isBorderLineChar_cases (hall c hc) with h | h
      · exact h
      · rw [hb c hc] at h
        exact absurd h (by decide)
    rw [(isBlankLine_iff_all l).mpr hws] at hnb
    exact absurd hnb (by decide)

theorem titledTail_false_of_no_bar :
    ∀ l : List Char, (∀ c ∈ l, isTitledBar c = false) → titledTail l = false := by
  intro l
  induction l with
  | nil => intro _; rfl
  | cons c1 rest ih =>
    intro hb
    cases rest with
    | nil => rfl
    | cons c2 rest2 =>
      cases rest2 with
      | nil => rfl
      | cons c3 rest3 =>
        have h1 : isTitledBar c1 = false := hb c1 (List.mem_cons_self _ _)
        simp only [titledTail, h1, Bool.false_and, Bool.false_or]
        exact ih (fun x hx => hb x (List.mem_cons_of_mem c1 hx))

theorem titledBorderMatch_false_of_no_border {l : List Char}
    (hb : ∀ c ∈ l, is_borderish c = false) : titledBorderMatch l = false := by
  cases l with
  | nil => rfl
  | cons c rest =>
    have htail : titledTail rest = false := by
      apply titledTail_false_of_no_bar
      intro x hx
      cases hbar : isTitledBar x with
      | false => rfl
      | true =>
        have hbx := isTitledBar_borderish hbar
        rw [hb x (List.mem_cons_of_mem c hx)] at hbx
        exact absurd hbx (by decide)
    simp [titledBorderMatch, htail]

theorem contentWrapperCapture_none_of_no_border {l : List Char}
    (hb : ∀ c ∈ l, is_borderish c = false) : contentWrapperCapture l = none := by
  unfold contentWrapperCapture
  cases hd : l.dropWhile isRustWhitespace with
  | nil => rfl
  | cons c r =>
    have hc : c ∈ l := (List.dropWhile_sublist _).subset
      (by rw [hd]; exact List.mem_cons_self c r)
    have hw : isWrapperBar c = false := by
      cases hwb : isWrapperBar c with
      | false => rfl
      | true =>
        have hbx := isWrapperBar_borderish hwb
        rw [hb c hc] at hbx
        exact absurd hbx (by decide)
    simp [hw]

theorem unwrap_none_aux {l : List Char} (c : Char) (r : List Char)
    (hs : stripBOM l = c :: r) (hbc : is_borderish c = false) :
    unwrap_wrapped_line l = none := by
  simp [unwrap_wrapped_line, hs, List.takeWhile_cons, hbc]

theorem scrub_fold_no_border (t : List Char)
    (hb : ∀ c ∈ t, is_borderish c = false) :
    ∀ res : List Char, t.foldl scrubStep (res, false) = (res ++ t, false) := by
  induction t with
  | nil => intro res; simp
  | cons c r ih =>
    intro res
    have hc : is_borderish c = false := hb c (List.mem_cons_self c r)
    have hstep : scrubStep (res, false) c = (res ++ [c], false) := by
      simp [scrubStep, hc]
    rw [List.foldl_cons, hstep,
      ih (fun x hx => hb x (List.mem_cons_of_mem c hx))]
    simp

theorem scrub_no_border (t : List Char)
    (hb : ∀ c ∈ t, is_borderish c = false) :
    scrub_inline_borderish t = trimEnd t := by
  unfold scrub_inline_borderish
  rw [scrub_fold_no_border t hb []]
  simp

theorem bstep_borderish_eq {c : Char} (hc : is_borderish c = false) (s : BStats) :
    (bstep s c).borderish = s.borderish := by
  unfold bstep
  split_ifs <;> first | rfl | simp_all

theorem fold_bstep_borderish (l : List Char)
    (hb : ∀ c ∈ l, is_borderish c = false) :
    ∀ s : BStats, (l.foldl bstep s).borderish = s.borderish := by
  induction l with
  | nil => intro s; rfl
  | cons c r ih =>
    intro s
    rw [List.foldl_cons, ih (fun x hx => hb x (List.mem_cons_of_mem c hx)),
      bstep_borderish_eq (hb c (List.mem_cons_self c r))]

theorem is_mostly_borderish_false_of_no_border {l : List Char}
    (hb : ∀ c ∈ l, is_borderish c = false) : is_mostly_borderish l = false := by
  unfold is_mostly_borderish
  by_cases he : (trim l).isEmpty
  · rw [if_pos he]
  · rw [if_neg he]
    have hbt : ∀ c ∈ trim l, is_borderish c = false :=
      fun c hc => hb c (mem_trim hc)
    have hband : ((trim l).foldl bstep ⟨0, 0, 0, 0, 0⟩).borderish = 0 :=
      fold_bstep_borderish (trim l) hbt _
    by_cases hp : (((trim l).foldl bstep ⟨0, 0, 0, 0, 0⟩).printable == 0) = true
    · rw [if_pos hp]
    · rw [if_neg hp]
      have hpne : ((trim l).foldl bstep ⟨0, 0, 0, 0, 0⟩).printable ≠ 0 := by
        simpa using hp
      have hsB : (match (trim l).head? with
          | some c => is_borderish c
          | none => false) = false := by
        cases hh : (trim l).head? with
        | none => rfl
        | some c => exact hbt c (mem_of_head? hh)
      have heB : (match (trim l).getLast? with
          | some c => is_borderish c
          | none => false) = false := by
        cases hh : (trim l).getLast? with
        | none => rfl
        | some c => exact hbt c (mem_of_getLast? hh)
      simp only [hband, hsB, heB, Bool.false_and, Bool.or_false]
      simp only [Nat.zero_mul, ge_iff_le, Nat.le_zero]
      simp only [decide_eq_false_iff_not]
      omega

/-- The push state corresponding to an already-emitted list of lines. -/
def stateOf (P : List (List Char)) : PushState :=
  ⟨joinLines P, P.isEmpty, trailingBlanks P⟩

theorem out_append (P : List (List Char)) (l : List Char) :
    joinLines P ++ (if P.isEmpty then [] else ['\n']) ++ l =
      joinLines (P ++ [l]) := by
  rw [joinLines_append_single]
  cases hP : P.isEmpty with
  | true =>
    have hPnil : P = [] := by simpa [List.isEmpty_iff] using hP
    simp [hPnil, joinLines]
  | false => simp

theorem trailingBlanks_append_blank (P : List (List Char)) (l : List Char)
    (hbl : isBlankLine l = true) :
    trailingBlanks (P ++ [l]) = trailingBlanks P + 1 := by
  simp [trailingBlanks, blankRuns, List.foldl_append, runStep, hbl]

theorem trailingBlanks_append_nonblank (P : List (List Char)) (l : List Char)
    (hbl : isBlankLine l = false) : trailingBlanks (P ++ [l]) = 0 := by
  simp [trailingBlanks, blankRuns, List.foldl_append, runStep, hbl]

theorem blankRuns_fst_le_snd (L : List (List Char)) :
    ∀ p : Nat × Nat, p.1 ≤ p.2 → (L.foldl runStep p).1 ≤ (L.foldl runStep p).2 := by
  induction L with
  | nil => intro p h; exact h
  | cons l rest ih =>
    intro p h
    refine ih (runStep p l) ?_
    unfold runStep
    by_cases hbl : isBlankLine l = true
    · rw [if_pos hbl]; simp
    · rw [if_neg hbl]; simp

theorem trailingBlanks_le_maxBlankRun (L : List (List Char)) :
    trailingBlanks L ≤ maxBlankRun L :=
  blankRuns_fst_le_snd L (0, 0) (Nat.le_refl 0)

theorem push_exact (P : List (List Char)) (l : List Char)
    (hfix : trimEnd l = l)
    (hcount : isBlankLine l = true → trailingBlanks P + 1 ≤ 2) :
    push_content_line (stateOf P) l = stateOf (P ++ [l]) := by
  unfold push_content_line
  rw [hfix]
  have h2 : (P ++ [l]).isEmpty = false := by simp
  by_cases hbl : (trim l).isEmpty
  · have hc := hcount hbl
    rw [if_pos hbl,
      if_neg (show ¬(stateOf P).consecutiveEmpty + 1 > 2 from by
        show ¬trailingBlanks P + 1 > 2
        omega)]
    have h3 : trailingBlanks (P ++ [l]) = trailingBlanks P + 1 :=
      trailingBlanks_append_blank P l hbl
    simp only [stateOf]
    rw [out_append P l, h2, h3]
  · rw [if_neg hbl]
    have h3 : trailingBlanks (P ++ [l]) = 0 :=
      trailingBlanks_append_nonblank P l (by simpa [isBlankLine] using hbl)
    simp only [stateOf]
    rw [out_append P l, h2, h3]

theorem stripLineStep_ascii (l : List Char) (hA : ∀ c ∈ l, c.toNat ≤ 0x7F)
    (hfix : trimEnd l = l) (st : PushState) :
    stripLineStep st l = push_content_line st l := by
  have hb : ∀ c ∈ l, is_borderish c = false :=
    fun c hc => is_borderish_ascii (hA c hc)
  by_cases hbl : isBlankLine l = true
  · have hnil : l = [] := blank_fixed_eq_nil hfix hbl
    subst hnil
    rfl
  · have hbl' : isBlankLine l = false := by simpa using hbl
    have hne : l ≠ [] := by
      intro h0
      rw [h0] at hbl'
      exact absurd hbl' (by decide)
    have h1 := is_mostly_borderish_false_of_no_border hb
    have h2 := borderLineMatch_false_of_no_border hb hbl'
    have h3 := titledBorderMatch_false_of_no_border hb
    unfold stripLineStep
    rw [if_neg (by simp [h1, h2, h3])]
    cases hl : l with
    | nil => exact absurd hl hne
    | cons c r =>
      have hsb : stripBOM l = c :: r := by
        rw [hl]
        exact stripBOM_ascii (c :: r) (by rw [← hl]; exact hA)
      rw [← hl]
      rw [unwrap_none_aux c r hsb (hb c (by rw [hl]; exact List.mem_cons_self c r)),
        contentWrapperCapture_none_of_no_border hb,
        scrub_no_border l hb, hfix]

theorem refold_fold (L : List (List Char)) (hmax : maxBlankRun L ≤ 2)
    (hA : ∀ l ∈ L, (∀ c ∈ l, c.toNat ≤ 0x7F) ∧ trimEnd l = l) :
    ∀ (S P : List (List Char)), L = P ++ S →
      S.foldl stripLineStep (stateOf P) = stateOf L := by
  intro S
  induction S with
  | nil =>
    intro P hP
    rw [List.foldl_nil, hP, List.append_nil]
  | cons l S' ih =>
    intro P hP
    have hlL : l ∈ L := by
      rw [hP]
      exact List.mem_append_right P (List.mem_cons_self l S')
    obtain ⟨hlA, hlfix⟩ := hA l hlL
    rw [List.foldl_cons, stripLineStep_ascii l hlA hlfix _]
    have hcount : isBlankLine l = true → trailingBlanks P + 1 ≤ 2 := by
      intro hbl
      have g1 : trailingBlanks (P ++ [l]) = trailingBlanks P + 1 :=
        trailingBlanks_append_blank P l hbl
      have g2 : trailingBlanks (P ++ [l]) ≤ maxBlankRun (P ++ [l]) :=
        trailingBlanks_le_maxBlankRun _
      have g3 : maxBlankRun (P ++ [l]) ≤ maxBlankRun ((P ++ [l]) ++ S') :=
        maxBlankRun_prefix_le _ _
      have g4 : (P ++ [l]) ++ S' = L := by rw [hP]; simp
      rw [g4] at g3
      omega
    rw [push_exact P l hlfix hcount]
    exact ih (P ++ [l]) (by rw [hP]; simp)

theorem stripCR_fixed {l : List Char} (hfix : trimEnd l = l) : stripCR l = l := by
  unfold stripCR
  cases hg : l.getLast? with
  | none => simp
  | some a =>
    by_cases ha : a = '\r'
    · exfalso
      subst ha
      cases hrev : l.reverse with
      | nil =>
        have : l = [] := by simpa using congrArg List.reverse hrev
        rw [this] at hg
        simp at hg
      | cons b t =>
        have hb : b = '\r' := by
          have h1 : l.reverse.head? = l.getLast? := by
            rw [List.head?_reverse]
          rw [hrev, hg] at h1
          simpa using h1
        have hlen : (trimEnd l).length < l.length := by
          unfold trimEnd
          rw [hrev, hb]
          have hdw : List.dropWhile isRustWhitespace ('\r' :: t) =
              List.dropWhile isRustWhitespace t := by
            rw [List.dropWhile_cons]
            simp [isRustWhitespace]
          rw [hdw]
          have := (List.dropWhile_sublist (l := t) isRustWhitespace).length_le
          have hlrev : l.length = t.length + 1 := by
            have := congrArg List.length hrev
            simpa using this
          simp only [List.length_reverse]
          omega
        rw [hfix] at hlen
        omega
    · rw [if_neg (by simp [ha])]

theorem linesOf_shape {L : List (List Char)} (hne : L ≠ [])
    (hmem : ∀ l ∈ L, '\n' ∉ l ∧ trimEnd l = l)
    (hlast : ∀ t, L.getLast? = some t → isBlankLine t = false) :
    linesOf (joinLines L) = L := by
  have hjne : joinLines L ≠ [] := by
    cases L with
    | nil => exact absurd rfl hne
    | cons a M =>
      cases M with
      | nil =>
        have hna := hlast a (by simp)
        intro hcon
        rw [show joinLines [a] = a from rfl] at hcon
        rw [hcon] at hna
        exact absurd hna (by decide)
      | cons b M' =>
        intro hcon
        rw [show joinLines (a :: b :: M') = a ++ '\n' :: joinLines (b :: M')
          from rfl] at hcon
        exact absurd hcon (by simp)
  unfold linesOf
  rw [if_neg (by simpa [List.isEmpty_iff] using hjne)]
  rw [splitNl_joinLines (fun l hl => (hmem l hl).1) hne]
  have hlastne : L.getLast? ≠ some [] := by
    intro hcon
    exact absurd (hlast [] hcon) (by decide)
  unfold dropLastEmpty
  rw [if_neg hlastne]
  calc L.map stripCR = L.map id :=
    List.map_congr_left (fun l hl => stripCR_fixed (hmem l hl).2)
  _ = L := List.map_id L

theorem joinLines_mem {L : List (List Char)} {c : Char} (h : c ∈ joinLines L) :
    c = '\n' ∨ ∃ l ∈ L, c ∈ l := by
  induction L with
  | nil => simp [joinLines] at h
  | cons a M ih =>
    cases M with
    | nil =>
      right
      exact ⟨a, by simp, by simpa [joinLines] using h⟩
    | cons b M' =>
      rw [show joinLines (a :: b :: M') = a ++ '\n' :: joinLines (b :: M')
        from rfl] at h
      rcases List.mem_append.mp h with h1 | h1
      · exact Or.inr ⟨a, by simp, h1⟩
      · rcases List.mem_cons.mp h1 with rfl | h2
        · exact Or.inl rfl
        · rcases ih h2 with h3 | ⟨l, hl, hcl⟩
          · exact Or.inl h3
          · exact Or.inr ⟨l, List.mem_cons_of_mem a hl, hcl⟩

theorem strip_tui_lines_fixed_of_shape {y : List Char}
    (h : StripShape (fun c => c.toNat ≤ 0x7F ∧ c ≠ '\x1B') y) :
    strip_tui_lines y = y := by
  obtain ⟨L, rfl, hmax, hmem, hlast⟩ := h
  cases hL : L with
  | nil =>
    subst hL
    rfl
  | cons a M =>
    rw [← hL]
    unfold strip_tui_lines
    rw [linesOf_shape (by rw [hL]; simp)
      (fun l hl => ⟨(hmem l hl).1, (hmem l hl).2.1⟩) hlast]
    rw [show (⟨[], true, 0⟩ : PushState) = stateOf [] from rfl]
    rw [refold_fold L hmax
      (fun l hl => ⟨fun c hc => ((hmem l hl).2.2 c hc).1, (hmem l hl).2.1⟩)
      L [] (by simp)]
    show trimEnd (joinLines L) = joinLines L
    exact trimEnd_joinLines_of_lastNonBlank L (fun l hl => (hmem l hl).2.1) hlast

/-- C7 counterexample: the input `"Ä±\u{00A0}"` contains no border glyph,
no escape character and no BOM, yet cleaning is not idempotent: cleaning
once right-trims the no-break space, and cleaning the result again picks
the mojibake-recovered variant `"ı"`. -/
theorem clean_text_idempotence_counterexample :
    (['Ä', '±', '\u00A0'] : List Char).all
        (fun c => !(is_borderish c) && !(c == '\x1B') && !(c == '\u009B')) = true ∧
    clean_text ['Ä', '±', '\u00A0'] = ['Ä', '±'] ∧
    clean_text ['Ä', '±'] = ['ı'] ∧
    clean_text (clean_text ['Ä', '±', '\u00A0']) ≠ clean_text ['Ä', '±', '\u00A0'] := by
  refine ⟨by decide, by decide, by decide, ?_⟩
  decide

/-- C7 amended: for inputs made only of ASCII characters and containing
no escape character (hence with no border glyph and no ANSI escape
sequence), the cleaning function is idempotent. For general border-free,
ANSI-free inputs idempotence can fail, because cleaning may expose a
mojibake reinterpretation of its own output. -/
theorem clean_text_idempotent_ascii (x : List Char)
    (hA : ∀ c ∈ x, c.toNat ≤ 0x7F) (hE : ∀ c ∈ x, c ≠ '\x1B') :
    clean_text (clean_text x) = clean_text x := by
  have hQx : ∀ c ∈ x, c.toNat ≤ 0x7F ∧ c ≠ '\x1B' :=
    fun c hc => ⟨hA c hc, hE c hc⟩
  have hne : ∀ c ∈ x, c ≠ '\x1B' ∧ c ≠ '\u009B' := by
    intro c hc
    refine ⟨hE c hc, ?_⟩
    intro h9
    have hca := hA c hc
    rw [h9] at hca
    exact absurd hca (by decide)
  have hvar : normalize_variants x = [x] := normalize_variants_ascii x hA
  have hansi : ansiStrip x = x := ansiStrip_id x hne
  have h1 : clean_text x = trimEnd (cleanStep ([], i64Min) x).1 := by
    unfold clean_text
    rw [hvar]
    simp only [List.foldl_cons, List.foldl_nil]
  have hO : StripShape (fun c => c.toNat ≤ 0x7F ∧ c ≠ '\x1B')
      (strip_tui_lines (ansiStrip x)) := by
    rw [hansi]
    exact strip_tui_lines_shape ⟨by decide, by decide⟩ x hQx
  by_cases hsc : score_candidate (strip_tui_lines (ansiStrip x)) > i64Min
  · have hy : clean_text x = strip_tui_lines (ansiStrip x) := by
      rw [h1]
      simp only [cleanStep]
      rw [if_pos hsc]
      exact shape_trimEnd_fixed hO
    have hOQ : ∀ c ∈ strip_tui_lines (ansiStrip x),
        c.toNat ≤ 0x7F ∧ c ≠ '\x1B' := by
      obtain ⟨L, hjoin, _, hmem, _⟩ := hO
      rw [hjoin]
      intro c hc
      rcases joinLines_mem hc with rfl | ⟨l, hl, hcl⟩
      · exact ⟨by decide, by decide⟩
      · exact (hmem l hl).2.2 c hcl
    have hOA : ∀ c ∈ strip_tui_lines (ansiStrip x), c.toNat ≤ 0x7F :=
      fun c hc => (hOQ c hc).1
    have hOE : ∀ c ∈ strip_tui_lines (ansiStrip x),
        c ≠ '\x1B' ∧ c ≠ '\u009B' := by
      intro c hc
      refine ⟨(hOQ c hc).2, ?_⟩
      intro h9
      have hca := hOA c hc
      rw [h9] at hca
      exact absurd hca (by decide)
    rw [hy]
    unfold clean_text
    rw [normalize_variants_ascii _ hOA]
    simp only [List.foldl_cons, List.foldl_nil, cleanStep]
    rw [ansiStrip_id _ hOE, strip_tui_lines_fixed_of_shape hO]
    rw [if_pos hsc]
    exact shape_trimEnd_fixed hO
  · have hy : clean_text x = [] := by
      rw [h1]
      simp only [cleanStep]
      rw [if_neg hsc]
      rfl
    rw [hy]
    decide

/-- Witness for the amended C7 at a concrete ASCII input. -/
theorem clean_text_idempotent_ascii_witness :
    (∀ c ∈ ("ok\n\ndone".data : List Char), c.toNat ≤ 0x7F) ∧
    clean_text (clean_text ("ok\n\ndone".data)) = clean_text ("ok\n\ndone".data) :=
  ⟨by decide,
    clean_text_idempotent_ascii ("ok\n\ndone".data) (by decide) (by decide)⟩
